import Mathlib

/-!
# Fuzzy matcher of `plagiarism.go`

Shallow embedding of `match` (plagiarism.go, lines 181-232) and of the part of
`FuzzySearchHTML` (lines 53-103) that slices the found text and extracts the
word context.

Modelling choices.

* A Go `string` that is valid UTF-8 is a `List Char` (one `Char` per rune).
  `len(s)` is the number of bytes, `utf8Len`; `utf8.RuneLen` is `RuneLen`.
  `for i, r := range s` visits the runes in order, and `s[i+utf8.RuneLen(r):]`
  is the list of the runes after the current one.
* `strings.ToLower` maps every rune through `unicode.ToLower`.  That function is
  part of the Go standard library; it is a parameter `lower : Char → Char` of
  the embedding, so that general theorems hold for every rune mapping.
* Go `int` values are `Int`.  Every counter of `match` is bounded by the byte
  length of the haystack, so no 64-bit overflow can occur.
* The `for { ... }` restart loop of `match` is driven by explicit fuel; that it
  always finishes is proved below, not assumed.
* Inputs with bytes that are not valid UTF-8 are outside the model.  (After
  `strings.ToLower` a string that is not pure ASCII is valid UTF-8 in any case,
  and on a valid string the byte index `i + utf8.RuneLen(r2)` is the start of
  the next rune.)
-/

namespace Plagiarism

/-! ## Strings -/

/-- Byte length of the UTF-8 encoding of a rune (`utf8.RuneLen` on a valid rune). -/
def RuneLen (r : Char) : Int :=
  if r.toNat < 0x80 then 1
  else if r.toNat < 0x800 then 2
  else if r.toNat < 0x10000 then 3
  else 4

/-- Byte length of a string, Go's `len(s)`. -/
def utf8Len : List Char → Int
  | [] => 0
  | r :: rs => RuneLen r + utf8Len rs

/-- The function `strings.ToLower`, with `unicode.ToLower` given as `lower`. -/
def ToLower (lower : Char → Char) (s : List Char) : List Char :=
  s.map lower

/-- ASCII branch of `unicode.ToLower`: `'A'..'Z'` are shifted by `'a' - 'A'`,
every other rune is returned unchanged.  On ASCII strings this is exactly
`unicode.ToLower`. -/
def lowerASCII (r : Char) : Char :=
  if 65 ≤ r.toNat ∧ r.toNat ≤ 90 then Char.ofNat (r.toNat + 32) else r

/-- The rune mapping `unicode.ToLower` on ASCII together with the single
`unicode.CaseRanges` entry `{0x023A, 0x023A, d{0, 10795, 0}}`
(U+023A LATIN CAPITAL LETTER A WITH STROKE, two bytes, lowers to U+2C65, three
bytes).  Used only to evaluate `match` on strings made of these runes. -/
def lowerLatin (r : Char) : Char :=
  if r.toNat = 0x023A then Char.ofNat (0x023A + 10795) else lowerASCII r

/-! ## `match` -/

/-- Outcome of the inner `for i, r2 := range target` loop for one needle rune. -/
inductive Scan where
  /-- The rune was found (`continue Outer`): new `first`, new `shift`, rest of target. -/
  | hit (first shift : Int) (rest : List Char)
  /-- The skip budget was reached (`continue Loop`): new `shift`, rest of target. -/
  | restart (shift : Int) (rest : List Char)
  /-- The target was exhausted (`return false, 0, 0`). -/
  | exhausted
  deriving DecidableEq, Repr

/-- The inner loop of `match` (lines 207-224): scan `target` for the needle rune
`r1`, starting with the given `shift` and `skipped`. -/
def scan (r1 : Char) (fuzzyDistance first : Int) :
    List Char → Int → Int → Scan
  | [], _, _ => Scan.exhausted
  | r2 :: rest, shift, skipped =>
    let shift := shift + RuneLen r2
    if r1 = r2 then
      Scan.hit (if first = 0 then shift - RuneLen r2 else first) shift rest
    else
      let skipped := skipped + 1
      if first ≠ 0 ∧ skipped = fuzzyDistance then
        Scan.restart shift rest
      else
        scan r1 fuzzyDistance first rest shift skipped

/-- Outcome of one pass of the `Outer` loop over the needle. -/
inductive Attempt where
  /-- Every needle rune was matched: `first` and `last = shift`. -/
  | complete (first last : Int)
  /-- The attempt was abandoned (`continue Loop`). -/
  | restart (shift : Int) (rest : List Char)
  /-- The target ran out (`return false, 0, 0`). -/
  | fail
  deriving DecidableEq, Repr

/-- The `Outer` loop of `match` (lines 202-226): walk the needle runes, skipping
spaces, scanning the remaining target for each of them. -/
def walk (fuzzyDistance : Int) :
    List Char → List Char → Int → Int → Attempt
  | [], _, first, shift => Attempt.complete first shift
  | r1 :: source, target, first, shift =>
    if r1 = ' ' then walk fuzzyDistance source target first shift
    else
      match scan r1 fuzzyDistance first target shift 0 with
      | Scan.hit first shift rest => walk fuzzyDistance source rest first shift
      | Scan.restart shift rest => Attempt.restart shift rest
      | Scan.exhausted => Attempt.fail

/-- The `Loop` of `match` (lines 198-229) with a bound on the number of
attempts; `none` means the bound was reached. -/
def Loop (fuzzyDistance : Int) (source : List Char) :
    Nat → List Char → Int → Option (Bool × Int × Int)
  | 0, _, _ => none
  | fuel + 1, target, shift =>
    match walk fuzzyDistance source target 0 shift with
    | Attempt.complete first last => some (true, first, last)
    | Attempt.restart shift rest => Loop fuzzyDistance source fuel rest shift
    | Attempt.fail => some (false, 0, 0)

/-- The function `match` (lines 181-232).  The result is `(found, first, last)`;
the restart loop is given one unit of fuel per rune of the target, plus one. -/
def match_ (lower : Char → Char) (source target : List Char) (fuzzyDistance : Int) :
    Option (Bool × Int × Int) :=
  let source := ToLower lower source
  let target := ToLower lower target
  let lenDiff := utf8Len target - utf8Len source
  if lenDiff < 0 then some (false, 0, 0)
  else if lenDiff = 0 ∧ source = target then some (true, 0, utf8Len source)
  else Loop fuzzyDistance source (target.length + 1) target 0

/-- The needle runes that `walk` looks for: every rune except the space. -/
def strip (s : List Char) : List Char :=
  s.filter (fun r => r ≠ ' ')

/-! ## `FuzzySearchHTML`

The regular expression of line 85 is interpreted by a small backtracking
matcher.  Go's `regexp` package returns the leftmost match and, among those,
the one a backtracking search finds first; `Re.run` and `Re.find` follow that
rule for the operators the pattern uses. -/

/-- The struct `Config` (lines 26-34). -/
structure Config where
  URL : List Char := []
  Search : List Char := []
  CountBefore : Int := 0
  CountAfter : Int := 0
  FuzzyDistance : Int := 0
  ProxyURL : List Char := []
  ProxyAPIKEY : List Char := []
  deriving DecidableEq

/-- The struct `Result` (lines 18-24). -/
structure Result where
  Search : List Char := []
  URL : List Char := []
  Before : List Char := []
  Found : List Char := []
  After : List Char := []
  deriving DecidableEq

/-- Split a string at a byte offset; `none` when the offset lies inside a rune
or beyond the end. -/
def splitBytes : List Char → Int → Option (List Char × List Char)
  | [], n => if n = 0 then some ([], []) else none
  | r :: rs, n =>
    if n = 0 then some ([], r :: rs)
    else if n < RuneLen r then none
    else (splitBytes rs (n - RuneLen r)).map (fun p => (r :: p.1, p.2))

/-- Result of the slice expression `text[start:end]`. -/
inductive Slice where
  /-- The slice is the given string. -/
  | ok (s : List Char)
  /-- The bounds are in range but cut through a rune: the slice is not valid UTF-8. -/
  | invalid
  /-- Run-time panic: slice bounds out of range. -/
  | outOfRange
  deriving DecidableEq

/-- The slice expression `text[start:end]` on bytes (line 78). -/
def byteSlice (text : List Char) (start stop : Int) : Slice :=
  if start < 0 ∨ stop < start ∨ utf8Len text < stop then Slice.outOfRange
  else
    match splitBytes text start with
    | none => Slice.invalid
    | some (_, rest) =>
      match splitBytes rest (stop - start) with
      | none => Slice.invalid
      | some (found, _) => Slice.ok found

/-- The predicate `unicode.IsSpace`, used by `strings.TrimSpace`. -/
def isSpace (r : Char) : Bool :=
  let n := r.toNat
  (0x09 ≤ n ∧ n ≤ 0x0D) ∨ n = 0x20 ∨ n = 0x85 ∨ n = 0xA0 ∨ n = 0x1680 ∨
    (0x2000 ≤ n ∧ n ≤ 0x200A) ∨ n = 0x2028 ∨ n = 0x2029 ∨ n = 0x202F ∨
    n = 0x205F ∨ n = 0x3000

/-- The function `strings.TrimSpace`. -/
def TrimSpace (s : List Char) : List Char :=
  ((s.dropWhile isSpace).reverse.dropWhile isSpace).reverse

/-- The regexp class `\s`, that is `[\t\n\f\r ]`. -/
def reSpace (r : Char) : Bool :=
  r = '\t' ∨ r = '\n' ∨ r = '\x0c' ∨ r = '\r' ∨ r = ' '

/-- The regexp class `[^\s]`. -/
def reNotSpace (r : Char) : Bool :=
  !reSpace r

/-- The regexp class `[^\s+]`: neither white space nor the plus sign. -/
def reNotSpacePlus (r : Char) : Bool :=
  !reSpace r && r != '+'

/-- The regular expressions the pattern of line 85 is made of. -/
inductive Re where
  /-- A literal string (what `regexp.QuoteMeta` protects). -/
  | lit (s : List Char)
  /-- The greedy `[class]+`. -/
  | plus (cls : Char → Bool)
  /-- Concatenation. -/
  | seq (a b : Re)
  /-- The greedy `(?:r)?`. -/
  | opt (r : Re)
  /-- The capture group number `index`. -/
  | group (index : Nat) (r : Re)

/-- The submatches 1 and 2. -/
structure Caps where
  g1 : List Char := []
  g2 : List Char := []
  deriving DecidableEq

/-- Record the text of a capture group. -/
def Caps.set (c : Caps) (index : Nat) (s : List Char) : Caps :=
  if index = 1 then { c with g1 := s }
  else if index = 2 then { c with g2 := s }
  else c

/-- Greedy `[class]+` followed by the continuation `k`: the longest run is tried
first, then shorter ones. -/
def plusRun {α : Type} (cls : Char → Bool) : List Char → (List Char → Option α) → Option α
  | [], _ => none
  | x :: xs, k =>
    if cls x then
      match plusRun cls xs k with
      | some r => some r
      | none => k xs
    else none

/-- Backtracking match of `re` at the head of the input, then of the
continuation `k`; alternatives are tried in the order of preference. -/
def Re.run : Re → List Char → Caps → (List Char → Caps → Option Caps) → Option Caps
  | Re.lit s, inp, c, k => if s.isPrefixOf inp then k (inp.drop s.length) c else none
  | Re.plus cls, inp, c, k => plusRun cls inp (fun rest => k rest c)
  | Re.seq a b, inp, c, k => a.run inp c (fun rest c' => b.run rest c' k)
  | Re.opt r, inp, c, k =>
    match r.run inp c k with
    | some res => some res
    | none => k inp c
  | Re.group index r, inp, c, k =>
    r.run inp c (fun rest c' => k rest (c'.set index (inp.take (inp.length - rest.length))))

/-- Leftmost match: the first start position at which `re` matches. -/
def Re.find (re : Re) : List Char → Option Caps
  | [] => re.run [] {} (fun _ c => some c)
  | x :: xs =>
    match re.run (x :: xs) {} (fun _ c => some c) with
    | some c => some c
    | none => Re.find re xs

/-- The expression `(?:r){0,n}` for `0 ≤ n`, as nested options `(?:r(?:r...)?)?`. -/
def repeatUpTo (r : Re) : Nat → Re
  | 0 => Re.lit []
  | n + 1 => Re.opt (Re.seq r (repeatUpTo r n))

/-- What `(?:r){0,%d}` compiles to for the Go `int` `n`: a counted repetition
for `0 ≤ n ≤ 1000`; the group followed by the literal text `{0,-n}` for a
negative `n` (a brace that opens no repetition is a literal); `none`, a compile
error (invalid repeat count), above 1000. -/
def counted (r : Re) (n : Int) : Option Re :=
  if n < 0 then some (Re.seq r (Re.lit ("\x7b0,".toList ++ (toString n).toList ++ "\x7d".toList)))
  else if 1000 < n then none
  else some (repeatUpTo r n.toNat)

/-- The pattern of line 85 for the given counts and found text. -/
def contextPattern (countBefore : Int) (found : List Char) (countAfter : Int) : Option Re :=
  match counted (Re.seq (Re.plus reNotSpacePlus) (Re.plus reSpace)) countBefore,
      counted (Re.seq (Re.plus reNotSpacePlus) (Re.opt (Re.plus reSpace))) countAfter with
  | some before, some after =>
    some (Re.seq (Re.group 1 before)
      (Re.seq (Re.opt (Re.plus reNotSpace))
        (Re.seq (Re.lit found)
          (Re.seq (Re.opt (Re.plus reNotSpace))
            (Re.seq (Re.opt (Re.plus reSpace)) (Re.group 2 after))))))
  | _, _ => none

/-- What a call of `FuzzySearchHTML` does. -/
inductive Outcome where
  /-- Returns `(result, nil)`. -/
  | ok (result : Result)
  /-- Returns `(result, err)`: the pattern does not compile. -/
  | compileError (result : Result)
  /-- Panics: slice bounds out of range at `text[start:end]`. -/
  | panic
  /-- The slice `text[start:end]` cuts a rune, and `Found` is not valid UTF-8. -/
  | invalidFound
  deriving DecidableEq

/-- The body of `FuzzySearchHTML` from line 65 on, for the plain `text`. -/
def searchText (lower : Char → Char) (targetStr text : List Char) (config : Config) :
    Option Outcome :=
  let result : Result := { Search := targetStr }
  match match_ lower targetStr text config.FuzzyDistance with
  | none => none
  | some (false, _, _) => some (Outcome.ok result)
  | some (true, start, stop) =>
    match byteSlice text start stop with
    | Slice.outOfRange => some Outcome.panic
    | Slice.invalid => some Outcome.invalidFound
    | Slice.ok found =>
      let result := { result with Found := found }
      match contextPattern config.CountBefore found config.CountAfter with
      | none => some (Outcome.compileError result)
      | some re =>
        match re.find text with
        | none => some (Outcome.ok result)
        | some caps =>
          some (Outcome.ok { result with Before := TrimSpace caps.g1, After := TrimSpace caps.g2 })

/-- The function `FuzzySearchHTML` (lines 53-103).  The converter
`html2text.HTML2Text` of the external package is the parameter `HTML2Text`; a
`nil` config is `none`. -/
def FuzzySearchHTML (lower : Char → Char) (HTML2Text : List Char → List Char)
    (targetStr html : List Char) (config : Option Config) : Option Outcome :=
  let config := config.getD {}
  let text := HTML2Text html
  let text := text.filter (fun r => r ≠ '\r')
  let text := text.map (fun r => if r = '\n' then ' ' else r)
  searchText lower targetStr text config

/-! ## Basic facts on byte lengths -/

theorem RuneLen_pos (r : Char) : 0 < RuneLen r := by
  unfold RuneLen
  split_ifs <;> omega

theorem utf8Len_nonneg (s : List Char) : 0 ≤ utf8Len s := by
  induction s with
  | nil => simp [utf8Len]
  | cons r rs ih =>
    have := RuneLen_pos r
    simp only [utf8Len]
    omega

theorem utf8Len_append (s t : List Char) : utf8Len (s ++ t) = utf8Len s + utf8Len t := by
  induction s with
  | nil => simp [utf8Len]
  | cons r rs ih =>
    show RuneLen r + utf8Len (rs ++ t) = RuneLen r + utf8Len rs + utf8Len t
    rw [ih]
    omega

theorem utf8Len_pos_of_ne_nil {s : List Char} (h : s ≠ []) : 0 < utf8Len s := by
  cases s with
  | nil => exact absurd rfl h
  | cons r rs =>
    have := RuneLen_pos r
    have := utf8Len_nonneg rs
    simp only [utf8Len]
    omega

/-! ## The inner loop -/

/-- A hit consumes a prefix without the needle rune, then the rune itself. -/
theorem scan_hit {r1 : Char} {fd first : Int} :
    ∀ (target : List Char) (shift skipped : Int) {f s : Int} {rest : List Char},
      scan r1 fd first target shift skipped = Scan.hit f s rest →
      ∃ pre, target = pre ++ r1 :: rest ∧ r1 ∉ pre ∧
        s = shift + utf8Len pre + RuneLen r1 ∧
        f = (if first = 0 then shift + utf8Len pre else first) ∧
        (first ≠ 0 → skipped < fd → skipped + pre.length < fd) := by
  intro target
  induction target with
  | nil => intro shift skipped f s rest h; simp [scan] at h
  | cons r2 tl ih =>
    intro shift skipped f s rest h
    simp only [scan] at h
    split at h
    · rename_i heq
      injection h with h1 h2 h3
      refine ⟨[], ?_, ?_, ?_, ?_, ?_⟩
      · simp [heq, h3]
      · simp
      · simp [utf8Len, heq, ← h2]
      · rw [← h1]; simp [utf8Len]
      · intro _ hs; simpa using hs
    · rename_i hne
      split at h
      · simp at h
      · rename_i hno
        obtain ⟨pre, hpre, hnot, hs, hf, hk⟩ := ih _ _ h
        refine ⟨r2 :: pre, ?_, ?_, ?_, ?_, ?_⟩
        · simp [hpre]
        · simp only [List.mem_cons, not_or]; exact ⟨hne, hnot⟩
        · simp only [utf8Len]; omega
        · simp only [utf8Len]; rw [hf]; split_ifs <;> omega
        · intro h0 hlt
          have hk' := hk h0
          have : skipped + 1 ≠ fd := fun e => hno ⟨h0, e⟩
          simp only [List.length_cons, Nat.cast_add, Nat.cast_one]
          have := hk' (by omega)
          omega

/-- A restart consumes a non-empty prefix and only happens once `first` is set. -/
theorem scan_restart {r1 : Char} {fd first : Int} :
    ∀ (target : List Char) (shift skipped : Int) {s : Int} {rest : List Char},
      scan r1 fd first target shift skipped = Scan.restart s rest →
      ∃ pre, target = pre ++ rest ∧ pre ≠ [] ∧ s = shift + utf8Len pre ∧ first ≠ 0 := by
  intro target
  induction target with
  | nil => intro shift skipped s rest h; simp [scan] at h
  | cons r2 tl ih =>
    intro shift skipped s rest h
    simp only [scan] at h
    split at h
    · simp at h
    · split at h
      · rename_i hr
        injection h with h1 h2
        refine ⟨[r2], by simp [h2], by simp, ?_, hr.1⟩
        simp [utf8Len, ← h1]
      · obtain ⟨pre, hpre, _, hs, h0⟩ := ih _ _ h
        refine ⟨r2 :: pre, by simp [hpre], by simp, ?_, h0⟩
        simp only [utf8Len]; omega

/-- The scan runs out only when the needle rune is absent from the target. -/
theorem scan_exhausted {r1 : Char} {fd first : Int} :
    ∀ (target : List Char) (shift skipped : Int),
      scan r1 fd first target shift skipped = Scan.exhausted → r1 ∉ target := by
  intro target
  induction target with
  | nil => intro _ _ _; simp
  | cons r2 tl ih =>
    intro shift skipped h
    simp only [scan] at h
    split at h
    · simp at h
    · rename_i hne
      split at h
      · simp at h
      · simp only [List.mem_cons, not_or]
        exact ⟨hne, ih _ _ h⟩

/-! ## One attempt -/

/-- A completed attempt matched the stripped needle inside a consumed prefix. -/
theorem walk_complete {fd : Int} :
    ∀ (source target : List Char) (first shift : Int) {f l : Int},
      walk fd source target first shift = Attempt.complete f l →
      ∃ pre rest, target = pre ++ rest ∧ (strip source).Sublist pre ∧
        l = shift + utf8Len pre := by
  intro source
  induction source with
  | nil =>
    intro target first shift f l h
    simp only [walk] at h
    injection h with _ h2
    exact ⟨[], target, by simp, by simp [strip], by simp [utf8Len, h2]⟩
  | cons r1 src ih =>
    intro target first shift f l h
    simp only [walk] at h
    split at h
    · rename_i hsp
      obtain ⟨pre, rest, h1, h2, h3⟩ := ih _ _ _ h
      exact ⟨pre, rest, h1, by simpa [strip, hsp] using h2, h3⟩
    · rename_i hsp
      split at h
      · rename_i f1 s1 rest1 hscan
        obtain ⟨p1, hp1, _, hs1, _, _⟩ := scan_hit _ _ _ hscan
        obtain ⟨p2, rest, hp2, hsub, hl⟩ := ih _ _ _ h
        refine ⟨p1 ++ r1 :: p2, rest, by simp [hp1, hp2], ?_, ?_⟩
        · have : strip (r1 :: src) = r1 :: strip src := by simp [strip, hsp]
          rw [this]
          exact List.Sublist.trans (List.Sublist.cons₂ r1 hsub)
            (List.sublist_append_right p1 (r1 :: p2))
        · rw [utf8Len_append]; simp only [utf8Len]; omega
      · simp at h
      · simp at h

/-- An abandoned attempt has consumed a non-empty prefix of the target. -/
theorem walk_restart {fd : Int} :
    ∀ (source target : List Char) (first shift : Int) {s : Int} {rest : List Char},
      walk fd source target first shift = Attempt.restart s rest →
      ∃ pre, target = pre ++ rest ∧ pre ≠ [] ∧ s = shift + utf8Len pre := by
  intro source
  induction source with
  | nil => intro target first shift s rest h; simp [walk] at h
  | cons r1 src ih =>
    intro target first shift s rest h
    simp only [walk] at h
    split at h
    · exact ih _ _ _ h
    · split at h
      · rename_i f1 s1 rest1 hscan
        obtain ⟨p1, hp1, _, hs1, _, _⟩ := scan_hit _ _ _ hscan
        obtain ⟨p2, hp2, _, hs⟩ := ih _ _ _ h
        refine ⟨p1 ++ r1 :: p2, by simp [hp1, hp2], by simp, ?_⟩
        rw [utf8Len_append]; simp only [utf8Len]; omega
      · rename_i s1 rest1 hscan
        injection h with h1 h2
        obtain ⟨p1, hp1, hne, hs1, _⟩ := scan_restart _ _ _ hscan
        exact ⟨p1, by rw [← h2]; exact hp1, hne, by rw [← h1]; exact hs1⟩
      · simp at h

/-- Every restart leaves a strictly shorter target. -/
theorem walk_restart_length {fd : Int} {source target : List Char} {first shift s : Int}
    {rest : List Char} (h : walk fd source target first shift = Attempt.restart s rest) :
    rest.length < target.length := by
  obtain ⟨pre, hp, hne, _⟩ := walk_restart _ _ _ _ h
  have : 0 < pre.length := List.length_pos.mpr hne
  rw [hp, List.length_append]
  omega

/-! ## The restart loop -/

/-- With more fuel than runes in the target the loop returns. -/
theorem Loop_some (fd : Int) (source : List Char) :
    ∀ (fuel : Nat) (target : List Char) (shift : Int), target.length < fuel →
      ∃ r, Loop fd source fuel target shift = some r := by
  intro fuel
  induction fuel with
  | zero => intro target shift h; omega
  | succ n ih =>
    intro target shift h
    simp only [Loop]
    split
    · exact ⟨_, rfl⟩
    · rename_i s rest hw
      have := walk_restart_length hw
      exact ih rest s (by omega)
    · exact ⟨_, rfl⟩

/-- The result of the loop does not depend on the fuel, once there is enough. -/
theorem Loop_fuel (fd : Int) (source : List Char) :
    ∀ (fuel fuel' : Nat) (target : List Char) (shift : Int),
      target.length < fuel → target.length < fuel' →
      Loop fd source fuel target shift = Loop fd source fuel' target shift := by
  intro fuel
  induction fuel with
  | zero => intro fuel' target shift h; omega
  | succ n ih =>
    intro fuel' target shift h h'
    cases fuel' with
    | zero => omega
    | succ m =>
      simp only [Loop]
      split
      · rfl
      · rename_i s rest hw
        have := walk_restart_length hw
        exact ih m rest s (by omega) (by omega)
      · rfl

/-- A successful loop matched the stripped needle before offset `e`. -/
theorem Loop_found {fd : Int} {source : List Char} :
    ∀ (fuel : Nat) (target : List Char) (shift : Int) {s e : Int},
      Loop fd source fuel target shift = some (true, s, e) →
      ∃ pre rest, target = pre ++ rest ∧ (strip source).Sublist pre ∧
        e = shift + utf8Len pre := by
  intro fuel
  induction fuel with
  | zero => intro target shift s e h; simp [Loop] at h
  | succ n ih =>
    intro target shift s e h
    simp only [Loop] at h
    split at h
    · rename_i f l hw
      simp only [Option.some.injEq, Prod.mk.injEq, true_and] at h
      obtain ⟨pre, rest, h1, h2, h3⟩ := walk_complete _ _ _ _ hw
      exact ⟨pre, rest, h1, h2, by rw [← h.2]; exact h3⟩
    · rename_i s1 rest1 hw
      obtain ⟨p1, hp1, _, hs1⟩ := walk_restart _ _ _ _ hw
      obtain ⟨p2, rest, hp2, hsub, he⟩ := ih _ _ h
      refine ⟨p1 ++ p2, rest, by simp [hp1, hp2], ?_, ?_⟩
      · exact List.Sublist.trans hsub (List.sublist_append_right p1 p2)
      · rw [utf8Len_append]; omega
    · simp at h

/-! ## Spans -/

/-- Once `first` lies strictly before `shift`, or once a needle rune remains to
be matched, a completed attempt reports a non-empty span. -/
theorem walk_span {fd : Int} :
    ∀ (source target : List Char) (first shift : Int) {f l : Int},
      walk fd source target first shift = Attempt.complete f l →
      0 ≤ first → first ≤ shift → (first < shift ∨ strip source ≠ []) →
      0 ≤ f ∧ f < l := by
  intro source
  induction source with
  | nil =>
    intro target first shift f l h h0 hle hor
    simp only [walk] at h
    injection h with h1 h2
    rcases hor with hlt | hne
    · omega
    · simp [strip] at hne
  | cons r1 src ih =>
    intro target first shift f l h h0 hle hor
    simp only [walk] at h
    split at h
    · rename_i hsp
      refine ih _ _ _ h h0 hle ?_
      rcases hor with hlt | hne
      · exact Or.inl hlt
      · exact Or.inr (by simpa [strip, hsp] using hne)
    · split at h
      · rename_i f1 s1 rest1 hscan
        obtain ⟨p1, _, _, hs1, hf1, _⟩ := scan_hit _ _ _ hscan
        have hp := utf8Len_nonneg p1
        have hr := RuneLen_pos r1
        have hf1' : 0 ≤ f1 ∧ f1 < s1 := by
          rw [hf1, hs1]; split_ifs <;> omega
        exact ih _ _ _ h hf1'.1 (by omega) (Or.inl hf1'.2)
      · simp at h
      · simp at h

/-- A successful loop for a needle with a non-space rune reports `s < e`. -/
theorem Loop_span {fd : Int} {source : List Char} (hne : strip source ≠ []) :
    ∀ (fuel : Nat) (target : List Char) (shift : Int) {s e : Int},
      Loop fd source fuel target shift = some (true, s, e) → 0 ≤ shift →
      0 ≤ s ∧ s < e := by
  intro fuel
  induction fuel with
  | zero => intro target shift s e h; simp [Loop] at h
  | succ n ih =>
    intro target shift s e h h0
    simp only [Loop] at h
    split at h
    · rename_i f l hw
      simp only [Option.some.injEq, Prod.mk.injEq, true_and] at h
      have := walk_span _ _ _ _ hw (le_refl 0) h0 (Or.inr hne)
      omega
    · rename_i s1 rest1 hw
      obtain ⟨p1, _, _, hs1⟩ := walk_restart _ _ _ _ hw
      have := utf8Len_nonneg p1
      exact ih _ _ h (by omega)
    · simp at h

/-! ## Span length on single-byte targets -/

theorem utf8Len_single {s : List Char} (h : ∀ c ∈ s, RuneLen c = 1) :
    utf8Len s = s.length := by
  induction s with
  | nil => simp [utf8Len]
  | cons r rs ih =>
    have h1 := h r (by simp)
    have h2 := ih (fun c hc => h c (by simp [hc]))
    simp only [utf8Len, List.length_cons, Nat.cast_add, Nat.cast_one]
    omega

/-- With `first` set, every needle rune advances `shift` by at most the fuzz
distance. -/
theorem walk_budget {fd : Int} (hfd : 1 ≤ fd) :
    ∀ (source target : List Char) (first shift : Int) {f l : Int},
      walk fd source target first shift = Attempt.complete f l →
      first ≠ 0 → (∀ c ∈ target, RuneLen c = 1) →
      f = first ∧ l ≤ shift + ((strip source).length : Int) * fd := by
  intro source
  induction source with
  | nil =>
    intro target first shift f l h _ _
    simp only [walk] at h
    injection h with h1 h2
    simp [strip]; omega
  | cons r1 src ih =>
    intro target first shift f l h h0 hA
    simp only [walk] at h
    split at h
    · rename_i hsp
      have := ih _ _ _ h h0 hA
      simpa [strip, hsp] using this
    · rename_i hsp
      split at h
      · rename_i f1 s1 rest1 hscan
        obtain ⟨p1, hp1, _, hs1, hf1, hk⟩ := scan_hit _ _ _ hscan
        have hA1 : ∀ c ∈ p1, RuneLen c = 1 := fun c hc => hA c (by simp [hp1, hc])
        have hAr : ∀ c ∈ rest1, RuneLen c = 1 := fun c hc => hA c (by simp [hp1, hc])
        have hr1 : RuneLen r1 = 1 := hA r1 (by simp [hp1])
        have hlen := utf8Len_single hA1
        have hk' := hk h0 (by omega)
        rw [if_neg h0] at hf1
        obtain ⟨e1, e2⟩ := ih _ _ _ h (by rw [hf1]; exact h0) hAr
        have hstrip : strip (r1 :: src) = r1 :: strip src := by simp [strip, hsp]
        rw [hstrip, List.length_cons]
        push_cast
        have hmul : (((strip src).length : Int) + 1) * fd
            = ((strip src).length : Int) * fd + fd := by ring
        rw [hmul]
        constructor
        · omega
        · omega
      · simp at h
      · simp at h

/-- The span of a completed attempt that starts with `first = 0`. -/
theorem walk_span_bound {fd : Int} (hfd : 1 ≤ fd) :
    ∀ (source target : List Char) (shift : Int) {f l : Int},
      walk fd source target 0 shift = Attempt.complete f l →
      0 ≤ shift → (∀ c ∈ target, RuneLen c = 1) →
      (strip source = [] ∧ f = 0 ∧ l = shift) ∨
      (strip source ≠ [] ∧ l - f ≤ 1 + (((strip source).length : Int) - 1) * fd) := by
  intro source
  induction source with
  | nil =>
    intro target shift f l h _ _
    simp only [walk] at h
    injection h with h1 h2
    left
    simp [strip]; omega
  | cons r1 src ih =>
    intro target shift f l h h0 hA
    simp only [walk] at h
    split at h
    · rename_i hsp
      have := ih _ _ h h0 hA
      simpa [strip, hsp] using this
    · rename_i hsp
      split at h
      · rename_i f1 s1 rest1 hscan
        obtain ⟨p1, hp1, _, hs1, hf1, _⟩ := scan_hit _ _ _ hscan
        have hAr : ∀ c ∈ rest1, RuneLen c = 1 := fun c hc => hA c (by simp [hp1, hc])
        have hr1 : RuneLen r1 = 1 := hA r1 (by simp [hp1])
        have hp := utf8Len_nonneg p1
        simp only [if_true] at hf1
        have hstrip : strip (r1 :: src) = r1 :: strip src := by simp [strip, hsp]
        right
        refine ⟨by simp [hstrip], ?_⟩
        rw [hstrip, List.length_cons]
        push_cast
        have hk0 : (0 : Int) ≤ ((strip src).length : Int) := Int.natCast_nonneg _
        by_cases hz : f1 = 0
        · rw [hz] at h
          rcases ih _ _ h (by omega) hAr with ⟨e0, e1, e2⟩ | ⟨_, e2⟩
          · rw [e0]; simp; omega
          · have hmul : (((strip src).length : Int) + 1 - 1) * fd
                = (((strip src).length : Int) - 1) * fd + fd := by ring
            rw [hmul]; omega
        · obtain ⟨e1, e2⟩ := walk_budget hfd _ _ _ _ h hz hAr
          have hmul : (((strip src).length : Int) + 1 - 1) * fd
              = ((strip src).length : Int) * fd := by ring
          rw [hmul]; omega
      · simp at h
      · simp at h

/-- The span bound carried through the restarts. -/
theorem Loop_span_bound {fd : Int} (hfd : 1 ≤ fd) {source : List Char}
    (hne : strip source ≠ []) :
    ∀ (fuel : Nat) (target : List Char) (shift : Int) {s e : Int},
      Loop fd source fuel target shift = some (true, s, e) → 0 ≤ shift →
      (∀ c ∈ target, RuneLen c = 1) →
      e - s ≤ 1 + (((strip source).length : Int) - 1) * fd := by
  intro fuel
  induction fuel with
  | zero => intro target shift s e h; simp [Loop] at h
  | succ n ih =>
    intro target shift s e h h0 hA
    simp only [Loop] at h
    split at h
    · rename_i f l hw
      simp only [Option.some.injEq, Prod.mk.injEq, true_and] at h
      rcases walk_span_bound hfd _ _ _ hw h0 hA with ⟨e0, _, _⟩ | ⟨_, e2⟩
      · exact absurd e0 hne
      · rw [← h.1, ← h.2]; exact e2
    · rename_i s1 rest1 hw
      obtain ⟨p1, hp1, _, hs1⟩ := walk_restart _ _ _ _ hw
      have := utf8Len_nonneg p1
      exact ih _ _ h (by omega) (fun c hc => hA c (by simp [hp1, hc]))
    · simp at h

/-- Without a needle rune to look for, the attempt completes at once. -/
theorem walk_strip_nil {fd : Int} :
    ∀ (source target : List Char) (first shift : Int), strip source = [] →
      walk fd source target first shift = Attempt.complete first shift := by
  intro source
  induction source with
  | nil => intro target first shift _; simp [walk]
  | cons r1 src ih =>
    intro target first shift h
    by_cases hsp : r1 = ' '
    · simp only [walk, if_pos hsp]
      exact ih _ _ _ (by simpa [strip, hsp] using h)
    · simp [strip, hsp] at h

/-! ## Facts on `lowerASCII` -/

theorem lowerASCII_toNat (c : Char) :
    (lowerASCII c).toNat = if 65 ≤ c.toNat ∧ c.toNat ≤ 90 then c.toNat + 32 else c.toNat := by
  unfold lowerASCII
  split_ifs with h
  · obtain ⟨h1, h2⟩ := h
    generalize c.toNat = n at h1 h2
    interval_cases n <;> rfl
  · rfl

theorem lowerASCII_space (c : Char) (h : lowerASCII c = ' ') : c = ' ' := by
  have h1 := lowerASCII_toNat c
  rw [h] at h1
  have h2 : (' ' : Char).toNat = 32 := by decide
  rw [h2] at h1
  have h3 : c.toNat = 32 := by
    split_ifs at h1 <;> omega
  rw [← Char.ofNat_toNat c, h3]

theorem lowerASCII_ascii (c : Char) (h : c.toNat < 128) : (lowerASCII c).toNat < 128 := by
  rw [lowerASCII_toNat]
  split_ifs <;> omega

/-! ## An occurrence whose first rune is new -/

/-- While `first` is unset the scan skips any prefix without the needle rune. -/
theorem scan_skip {r1 : Char} {fd : Int} (rest : List Char) :
    ∀ (pre : List Char) (shift skipped : Int), r1 ∉ pre →
      scan r1 fd 0 (pre ++ r1 :: rest) shift skipped
        = Scan.hit (shift + utf8Len pre) (shift + utf8Len pre + RuneLen r1) rest := by
  intro pre
  induction pre with
  | nil =>
    intro shift skipped _
    simp [scan, utf8Len]
  | cons b pre ih =>
    intro shift skipped hn
    simp only [List.mem_cons, not_or] at hn
    simp only [List.cons_append, scan, if_neg hn.1]
    rw [if_neg (by simp)]
    have h := ih (shift + RuneLen b) (skipped + 1) hn.2
    rw [show pre.append (r1 :: rest) = pre ++ r1 :: rest from rfl, h]
    simp only [utf8Len]
    congr 1 <;> omega

/-- With `first` set, a needle without spaces that sits at the head of the
target is matched rune by rune. -/
theorem walk_head {fd : Int} (post : List Char) :
    ∀ (source : List Char) (first shift : Int), first ≠ 0 → ' ' ∉ source →
      walk fd source (source ++ post) first shift
        = Attempt.complete first (shift + utf8Len source) := by
  intro source
  induction source with
  | nil => intro first shift _ _; simp [walk, utf8Len]
  | cons r1 src ih =>
    intro first shift h0 hsp
    simp only [List.mem_cons, not_or] at hsp
    have hr : ¬ r1 = ' ' := fun e => hsp.1 e.symm
    simp only [List.cons_append, walk, if_neg hr, scan, if_true, if_neg h0]
    have h := ih first (shift + RuneLen r1) h0 hsp.2
    rw [show src.append post = src ++ post from rfl, h]
    simp only [utf8Len]
    congr 1; omega

/-! ## Greedy matching is complete -/

theorem sublist_after_first {a : Char} {s rest : List Char} :
    ∀ (pre : List Char), a ∉ pre → (a :: s).Sublist (pre ++ a :: rest) → s.Sublist rest := by
  intro pre
  induction pre with
  | nil =>
    intro _ h
    exact List.cons_sublist_cons.mp h
  | cons b pre ih =>
    intro hn h
    simp only [List.mem_cons, not_or] at hn
    rw [List.cons_append] at h
    cases h with
    | cons _ h' => exact ih hn.2 h'
    | cons₂ _ h' => exact absurd rfl hn.1

/-- An attempt that runs out of target shows the stripped needle is no
subsequence of the target. -/
theorem walk_fail {fd : Int} :
    ∀ (source target : List Char) (first shift : Int),
      walk fd source target first shift = Attempt.fail →
      ¬ (strip source).Sublist target := by
  intro source
  induction source with
  | nil => intro target first shift h; simp [walk] at h
  | cons r1 src ih =>
    intro target first shift h
    simp only [walk] at h
    split at h
    · rename_i hsp
      have := ih _ _ _ h
      simpa [strip, hsp] using this
    · rename_i hsp
      have hstrip : strip (r1 :: src) = r1 :: strip src := by simp [strip, hsp]
      rw [hstrip]
      split at h
      · rename_i f1 s1 rest1 hscan
        obtain ⟨p1, hp1, hnot, _, _, _⟩ := scan_hit _ _ _ hscan
        intro hsub
        rw [hp1] at hsub
        exact ih _ _ _ h (sublist_after_first p1 hnot hsub)
      · simp at h
      · rename_i hscan
        have hnot := scan_exhausted _ _ _ hscan
        intro hsub
        exact hnot (hsub.subset (by simp))

/-- A non-positive fuzz distance never triggers a restart of the scan. -/
theorem scan_no_restart {r1 : Char} {fd first : Int} (hfd : fd ≤ 0) :
    ∀ (target : List Char) (shift skipped : Int) (s : Int) (rest : List Char),
      0 ≤ skipped → scan r1 fd first target shift skipped ≠ Scan.restart s rest := by
  intro target
  induction target with
  | nil => intro shift skipped s rest _; simp [scan]
  | cons r2 tl ih =>
    intro shift skipped s rest hk
    simp only [scan]
    split
    · simp
    · split
      · rename_i hr
        omega
      · exact ih _ _ _ _ (by omega)

/-- A non-positive fuzz distance never abandons an attempt. -/
theorem walk_no_restart {fd : Int} (hfd : fd ≤ 0) :
    ∀ (source target : List Char) (first shift : Int) (s : Int) (rest : List Char),
      walk fd source target first shift ≠ Attempt.restart s rest := by
  intro source
  induction source with
  | nil => intro target first shift s rest; simp [walk]
  | cons r1 src ih =>
    intro target first shift s rest
    simp only [walk]
    split
    · exact ih _ _ _ _ _
    · split
      · exact ih _ _ _ _ _
      · rename_i hscan
        exact absurd hscan (scan_no_restart hfd _ _ _ _ _ (le_refl 0))
      · simp

/-! ## Offsets lie in the lowercased haystack -/

/-- A reported span lies inside the lowercased haystack. -/
theorem Loop_offsets {fd : Int} {source : List Char} :
    ∀ (fuel : Nat) (target : List Char) (shift : Int) {s e : Int},
      Loop fd source fuel target shift = some (true, s, e) → 0 ≤ shift →
      0 ≤ s ∧ s ≤ e ∧ e ≤ shift + utf8Len target := by
  intro fuel
  induction fuel with
  | zero => intro target shift s e h; simp [Loop] at h
  | succ n ih =>
    intro target shift s e h h0
    simp only [Loop] at h
    split at h
    · rename_i f l hw
      simp only [Option.some.injEq, Prod.mk.injEq, true_and] at h
      obtain ⟨p, r, h1, _, h3⟩ := walk_complete _ _ _ _ hw
      have hp := utf8Len_nonneg p
      have hr := utf8Len_nonneg r
      have hlen : utf8Len target = utf8Len p + utf8Len r := by rw [h1, utf8Len_append]
      by_cases hs : strip source = []
      · rw [walk_strip_nil _ _ _ _ hs] at hw
        injection hw with e1 e2
        omega
      · have := walk_span _ _ _ _ hw (le_refl 0) h0 (Or.inr hs)
        omega
    · rename_i s1 rest1 hw
      obtain ⟨p1, hp1, _, hs1⟩ := walk_restart _ _ _ _ hw
      have hp := utf8Len_nonneg p1
      have hlen : utf8Len target = utf8Len p1 + utf8Len rest1 := by rw [hp1, utf8Len_append]
      have := ih _ _ h (by omega)
      omega
    · simp at h

/-- The offsets `match` returns are positions in the lowercased haystack. -/
theorem match_offsets_in_lowered (lower : Char → Char) (needle haystack : List Char)
    (fuzzyDistance start stop : Int)
    (h : match_ lower needle haystack fuzzyDistance = some (true, start, stop)) :
    0 ≤ start ∧ start ≤ stop ∧ stop ≤ utf8Len (ToLower lower haystack) := by
  simp only [match_] at h
  split at h
  · simp at h
  · split at h
    · simp only [Option.some.injEq, Prod.mk.injEq, true_and] at h
      have := utf8Len_nonneg (ToLower lower needle)
      omega
    · have := Loop_offsets _ _ _ h (le_refl 0)
      omega

/-! ## Claims -/

/-- C1. Soundness of `match`: whenever `match` reports `(true, start, end)`, the
lowercased haystack splits into a prefix of exactly `end` bytes and a rest, and
the runes of the lowercased needle with the spaces removed occur, in order, as a
subsequence of that prefix (so all of them lie before offset `end`). -/
theorem match_sound (lower : Char → Char) (needle haystack : List Char)
    (fuzzyDistance start stop : Int)
    (h : match_ lower needle haystack fuzzyDistance = some (true, start, stop)) :
    ∃ pre rest, ToLower lower haystack = pre ++ rest ∧ utf8Len pre = stop ∧
      (strip (ToLower lower needle)).Sublist pre := by
  simp only [match_] at h
  split at h
  · simp at h
  · split at h
    · rename_i _ heq
      simp only [Option.some.injEq, Prod.mk.injEq, true_and] at h
      refine ⟨ToLower lower haystack, [], by simp, ?_, ?_⟩
      · rw [← heq.2]; exact h.2
      · rw [← heq.2]; exact List.filter_sublist _
    · obtain ⟨pre, rest, h1, h2, h3⟩ := Loop_found _ _ _ h
      exact ⟨pre, rest, h1, by omega, h2⟩

/-- Witness for C1 on the spec's example `brand` in `this is Brand new`. -/
theorem match_sound_witness :
    match_ lowerASCII "brand".toList "this is Brand new".toList 1 = some (true, 8, 13) ∧
      ∃ pre rest, ToLower lowerASCII "this is Brand new".toList = pre ++ rest ∧
        utf8Len pre = 13 ∧ (strip (ToLower lowerASCII "brand".toList)).Sublist pre :=
  ⟨by decide,
    match_sound lowerASCII "brand".toList "this is Brand new".toList 1 8 13 (by decide)⟩

/-- C8. `match` terminates on every input: it returns a result for every needle,
haystack and integer `fuzzyDistance`; every restart of the loop leaves a strictly
shorter remaining target; and any fuel above the number of runes left in the
target gives the same result as the fuel `match` uses. -/
theorem match_terminates (lower : Char → Char) (needle haystack : List Char)
    (fuzzyDistance : Int) :
    (∃ r, match_ lower needle haystack fuzzyDistance = some r) ∧
    (∀ (source target rest : List Char) (shift shift' : Int),
      walk fuzzyDistance source target 0 shift = Attempt.restart shift' rest →
      rest.length < target.length) ∧
    (∀ (source target : List Char) (shift : Int) (fuel : Nat), target.length < fuel →
      ∃ r, Loop fuzzyDistance source fuel target shift = some r ∧
        Loop fuzzyDistance source (target.length + 1) target shift = some r) := by
  refine ⟨?_, ?_, ?_⟩
  · simp only [match_]
    split
    · exact ⟨_, rfl⟩
    · split
      · exact ⟨_, rfl⟩
      · exact Loop_some _ _ _ _ _ (Nat.lt_succ_self _)
  · intro source target rest shift shift' h
    exact walk_restart_length h
  · intro source target shift fuel hf
    obtain ⟨r, hr⟩ := Loop_some fuzzyDistance source fuel target shift hf
    refine ⟨r, hr, ?_⟩
    rw [← hr]
    exact Loop_fuel _ _ _ _ _ _ (Nat.lt_succ_self _) hf

/-- C9. A reported match is never empty for a real needle: when the needle has
a rune other than the space (and lowercasing turns no other rune into a space,
as `unicode.ToLower` does not), `match` reporting `(true, start, end)` implies
`start < end`. -/
theorem match_nonempty (lower : Char → Char) (needle haystack : List Char)
    (fuzzyDistance start stop : Int)
    (hlower : ∀ c, lower c = ' ' → c = ' ')
    (hne : ∃ c ∈ needle, c ≠ ' ')
    (h : match_ lower needle haystack fuzzyDistance = some (true, start, stop)) :
    start < stop := by
  obtain ⟨c, hc, hcs⟩ := hne
  have hstrip : strip (ToLower lower needle) ≠ [] := by
    intro hnil
    have hmem : lower c ∈ strip (ToLower lower needle) := by
      simp only [strip, ToLower, List.mem_filter, List.mem_map]
      exact ⟨⟨c, hc, rfl⟩, by simpa using fun e => hcs (hlower c e)⟩
    rw [hnil] at hmem
    simp at hmem
  simp only [match_] at h
  split at h
  · simp at h
  · split at h
    · simp only [Option.some.injEq, Prod.mk.injEq, true_and] at h
      have hnn : ToLower lower needle ≠ [] := by
        intro e
        rw [e] at hstrip
        simp [strip] at hstrip
      have := utf8Len_pos_of_ne_nil hnn
      omega
    · exact (Loop_span hstrip _ _ _ h (le_refl 0)).2

/-- Witness for C9: `cat` in `c..a..t` with fuzz distance 3 gives the span `[3, 7)`. -/
theorem match_nonempty_witness :
    match_ lowerASCII "cat".toList "c..a..t".toList 3 = some (true, 3, 7) ∧ (3 : Int) < 7 :=
  ⟨by decide,
    match_nonempty lowerASCII "cat".toList "c..a..t".toList 3 3 7 lowerASCII_space
      ⟨'c', by decide, by decide⟩ (by decide)⟩

/-- C10. The matched span is bounded by the fuzz distance: for an ASCII haystack
that differs from the needle after lowercasing, `fuzzyDistance ≥ 1` and a needle
with `n ≥ 1` non-space runes, a reported span satisfies
`end - start ≤ 1 + (n - 1) * fuzzyDistance`.  The assumptions on `lower` are the
two facts of `unicode.ToLower` used: it fixes the space and keeps ASCII runes
ASCII.  (The needle's being ASCII is not needed.) -/
theorem match_span_bound (lower : Char → Char) (needle haystack : List Char)
    (fuzzyDistance start stop : Int)
    (hsp : lower ' ' = ' ')
    (hlow : ∀ c : Char, c.toNat < 128 → (lower c).toNat < 128)
    (hascii : ∀ c ∈ haystack, c.toNat < 128)
    (hneq : ToLower lower needle ≠ ToLower lower haystack)
    (hfd : 1 ≤ fuzzyDistance)
    (hn : 1 ≤ (strip needle).length)
    (h : match_ lower needle haystack fuzzyDistance = some (true, start, stop)) :
    stop - start ≤ 1 + (((strip needle).length : Int) - 1) * fuzzyDistance := by
  have hA : ∀ c ∈ ToLower lower haystack, RuneLen c = 1 := by
    intro c hc
    simp only [ToLower, List.mem_map] at hc
    obtain ⟨d, hd, rfl⟩ := hc
    have := hlow d (hascii d hd)
    simp [RuneLen, this]
  have hcount : (strip (ToLower lower needle)).length ≤ (strip needle).length := by
    clear hn hneq h
    induction needle with
    | nil => simp [strip, ToLower]
    | cons a l ih =>
      by_cases ha : a = ' '
      · subst ha
        simpa [strip, ToLower, hsp] using ih
      · have e1 : strip (a :: l) = a :: strip l := by simp [strip, ha]
        rw [e1, List.length_cons]
        have e2 : (strip (ToLower lower (a :: l))).length
            ≤ (strip (ToLower lower l)).length + 1 := by
          simp only [strip, ToLower, List.map_cons]
          rw [List.filter_cons]
          split <;> simp
        omega
  have hmono : (((strip (ToLower lower needle)).length : Int) - 1) * fuzzyDistance
      ≤ (((strip needle).length : Int) - 1) * fuzzyDistance := by
    apply Int.mul_le_mul_of_nonneg_right
    · omega
    · omega
  simp only [match_] at h
  split at h
  · simp at h
  · split at h
    · rename_i _ heq
      exact absurd heq.2 hneq
    · by_cases hs : strip (ToLower lower needle) = []
      · have hw : walk fuzzyDistance (ToLower lower needle) (ToLower lower haystack) 0 0
            = Attempt.complete 0 0 := walk_strip_nil _ _ 0 0 hs
        simp only [Loop, hw, Option.some.injEq, Prod.mk.injEq, true_and] at h
        have hnn : (0 : Int) ≤ (((strip needle).length : Int) - 1) * fuzzyDistance :=
          Int.mul_nonneg (by omega) (by omega)
        omega
      · have := Loop_span_bound hfd hs _ _ _ h (le_refl 0) hA
        omega

/-- Witness for C10: `cat` in `c..a..t` with fuzz distance 3, span `[3, 7)`,
bound `1 + 2 * 3`. -/
theorem match_span_bound_witness :
    match_ lowerASCII "cat".toList "c..a..t".toList 3 = some (true, 3, 7) ∧
      (7 : Int) - 3 ≤ 1 + (((strip "cat".toList).length : Int) - 1) * 3 :=
  ⟨by decide,
    match_span_bound lowerASCII "cat".toList "c..a..t".toList 3 3 7 (by decide)
      lowerASCII_ascii (by decide) (by decide) (by decide) (by decide) (by decide)⟩


/-- C3, counterexample. The needle `ab` occurs contiguously in `xaab`, yet with
`fuzzyDistance = 1` the first `a` opens an attempt that is abandoned on the
second `a`, which is consumed, and `match` reports no match. -/
theorem match_exact_counterexample :
    match_ lowerASCII "ab".toList "xaab".toList 1 = some (false, 0, 0) := by
  decide

/-- C3, amended. For a non-empty needle without a space, a haystack
`pre ++ occ ++ post` in which `occ` equals the needle case-insensitively, `pre`
is non-empty and the lowercased `pre` does not contain the needle's first
lowercased rune, and every `fuzzyDistance`: `match` reports found, and the span
is that occurrence, i.e. `lower(haystack)[start:end] = lower(needle)`. -/
theorem match_exact_occurrence (lower : Char → Char) (needle pre occ post : List Char)
    (fuzzyDistance : Int)
    (hlower : ∀ c, lower c = ' ' → c = ' ')
    (hne : needle ≠ [])
    (hnosp : ' ' ∉ needle)
    (hocc : ToLower lower occ = ToLower lower needle)
    (hpre : pre ≠ [])
    (hfirst : ∀ c ∈ needle.head?, lower c ∉ ToLower lower pre) :
    match_ lower needle (pre ++ occ ++ post) fuzzyDistance
        = some (true, utf8Len (ToLower lower pre),
            utf8Len (ToLower lower pre) + utf8Len (ToLower lower needle)) ∧
      ToLower lower (pre ++ occ ++ post)
        = ToLower lower pre ++ ToLower lower needle ++ ToLower lower post := by
  have hT : ToLower lower (pre ++ occ ++ post)
      = ToLower lower pre ++ ToLower lower needle ++ ToLower lower post := by
    rw [← hocc]; simp [ToLower]
  refine ⟨?_, hT⟩
  cases needle with
  | nil => exact absurd rfl hne
  | cons c cs =>
    have hc : lower c ∉ ToLower lower pre := hfirst c (by simp)
    have hLpre : ToLower lower pre ≠ [] := by
      simpa [ToLower] using hpre
    have hpos := utf8Len_pos_of_ne_nil hLpre
    have hpost := utf8Len_nonneg (ToLower lower post)
    have hcsp : ¬ lower c = ' ' := fun e => hnosp (by rw [hlower c e]; simp)
    have hcs : ' ' ∉ ToLower lower cs := by
      simp only [ToLower, List.mem_map, not_exists, not_and]
      intro d hd e
      exact hnosp (by rw [← hlower d e]; simp [hd])
    simp only [match_, hT]
    have hlen : utf8Len (ToLower lower pre ++ ToLower lower (c :: cs) ++ ToLower lower post)
        = utf8Len (ToLower lower pre) + utf8Len (ToLower lower (c :: cs))
          + utf8Len (ToLower lower post) := by
      rw [utf8Len_append, utf8Len_append]
    rw [if_neg (by rw [hlen]; omega), if_neg (by rw [hlen]; intro h; omega)]
    have hS : ToLower lower (c :: cs) = lower c :: ToLower lower cs := by simp [ToLower]
    have hshape : ToLower lower pre ++ ToLower lower (c :: cs) ++ ToLower lower post
        = ToLower lower pre ++ lower c :: (ToLower lower cs ++ ToLower lower post) := by
      rw [hS]; simp
    have hw : walk fuzzyDistance (ToLower lower (c :: cs))
        (ToLower lower pre ++ ToLower lower (c :: cs) ++ ToLower lower post) 0 0
        = Attempt.complete (utf8Len (ToLower lower pre))
            (utf8Len (ToLower lower pre) + utf8Len (ToLower lower (c :: cs))) := by
      rw [hshape, hS]
      simp only [walk, if_neg hcsp]
      rw [scan_skip _ _ _ _ hc]
      simp only [zero_add]
      rw [walk_head _ _ _ _ (by omega) hcs]
      simp only [utf8Len]
      congr 1; omega
    simp only [Loop, hw]

/-- Witness for C3 (amended) on the spec's example: `brand` in
`this is Brand new` is found at `[8, 13)`. -/
theorem match_exact_occurrence_witness :
    match_ lowerASCII "brand".toList
        ("this is ".toList ++ "Brand".toList ++ " new".toList) 1
        = some (true, utf8Len (ToLower lowerASCII "this is ".toList),
            utf8Len (ToLower lowerASCII "this is ".toList)
              + utf8Len (ToLower lowerASCII "brand".toList)) ∧
      ToLower lowerASCII ("this is ".toList ++ "Brand".toList ++ " new".toList)
        = ToLower lowerASCII "this is ".toList ++ ToLower lowerASCII "brand".toList
          ++ ToLower lowerASCII " new".toList :=
  match_exact_occurrence lowerASCII "brand".toList "this is ".toList "Brand".toList
    " new".toList 1 lowerASCII_space (by decide) (by decide) (by decide) (by decide)
    (by decide)

/-- C7, counterexample. With `fuzzyDistance = 0` the needle `a` is still found
in `ba`, and the search on that text returns a populated `Found`: nothing
rejects the configuration. -/
theorem match_zero_fuzzy_counterexample :
    match_ lowerASCII "a".toList "ba".toList 0 = some (true, 1, 2) ∧
      searchText lowerASCII "a".toList "ba".toList { FuzzyDistance := 0 }
        = some (Outcome.ok { Search := "a".toList, Found := "a".toList }) := by
  decide

/-- C7, amended. A non-positive `fuzzyDistance` is not rejected: the skip budget
is then never reached, and `match` returns a result that reports found exactly
when the lowercased haystack has at least as many bytes as the lowercased
needle and contains the needle's non-space runes, in order, as a subsequence. -/
theorem match_nonpositive_fuzzy (lower : Char → Char) (needle haystack : List Char)
    (fuzzyDistance : Int) (hfd : fuzzyDistance ≤ 0) :
    ∃ found start stop,
      match_ lower needle haystack fuzzyDistance = some (found, start, stop) ∧
      (found = true ↔
        utf8Len (ToLower lower needle) ≤ utf8Len (ToLower lower haystack) ∧
        (strip (ToLower lower needle)).Sublist (ToLower lower haystack)) := by
  simp only [match_]
  split
  · rename_i hlt
    refine ⟨false, 0, 0, rfl, ?_⟩
    constructor
    · intro h; simp at h
    · intro h; omega
  · rename_i hge
    split
    · rename_i heq
      refine ⟨true, 0, _, rfl, ?_⟩
      simp only [true_iff]
      refine ⟨by omega, ?_⟩
      rw [← heq.2]
      exact List.filter_sublist _
    · simp only [Loop]
      split
      · rename_i f l hw
        refine ⟨true, f, l, rfl, ?_⟩
        simp only [true_iff]
        refine ⟨by omega, ?_⟩
        obtain ⟨p, r, h1, h2, _⟩ := walk_complete _ _ _ _ hw
        rw [h1]
        exact h2.trans (List.sublist_append_left p r)
      · rename_i s rest hw
        exact absurd hw (walk_no_restart hfd _ _ _ _ _ _)
      · rename_i hw
        refine ⟨false, 0, 0, rfl, ?_⟩
        constructor
        · intro h; simp at h
        · intro h
          exact absurd h.2 (walk_fail _ _ _ _ hw)

/-- Witness for C7 (amended) at `fuzzyDistance = -1`, needle `a`, haystack `ba`. -/
theorem match_nonpositive_fuzzy_witness :
    ∃ found start stop,
      match_ lowerASCII "a".toList "ba".toList (-1) = some (found, start, stop) ∧
      (found = true ↔
        utf8Len (ToLower lowerASCII "a".toList) ≤ utf8Len (ToLower lowerASCII "ba".toList) ∧
        (strip (ToLower lowerASCII "a".toList)).Sublist (ToLower lowerASCII "ba".toList)) :=
  match_nonpositive_fuzzy lowerASCII "a".toList "ba".toList (-1) (by decide)

/-- C2, evaluated. For the needle `ab` and the haystack `abc` the first needle
rune is matched at offset 0, which leaves `first` at its initial value 0; the
match of `b` then overwrites it, and `match` returns the span `[1, 2)`, the
text `b`, instead of `[0, 2)`. -/
theorem match_span_drops_first_rune :
    match_ lowerASCII "ab".toList "abc".toList 1 = some (true, 1, 2) ∧
      byteSlice "abc".toList 1 2 = Slice.ok "b".toList := by
  decide

/-- C4, evaluated. For the needle `ab` and the haystack `a.b` with
`fuzzyDistance = 1` the filler `.` has one rune, which is not fewer than the
fuzz distance, and `match` still reports found: after a first match at offset
0 the skip budget is not applied. -/
theorem match_first_gap_unbounded :
    match_ lowerASCII "ab".toList "a.b".toList 1 = some (true, 2, 3) ∧
      match_ lowerASCII "ab".toList "a.......b".toList 1 = some (true, 8, 9) := by
  decide

/-- C5, evaluated. For the haystack U+023A `a` (three bytes) the lowercased
haystack has four bytes, `match` returns `(true, 3, 4)`, and the slice
`text[3:4]` of the original text is out of range. -/
theorem match_offsets_exceed_original :
    match_ lowerLatin "a".toList [Char.ofNat 0x023A, 'a'] 1 = some (true, 3, 4) ∧
      utf8Len [Char.ofNat 0x023A, 'a'] = 3 ∧
      searchText lowerLatin "a".toList [Char.ofNat 0x023A, 'a']
        { FuzzyDistance := 1 } = some Outcome.panic := by
  decide

/-- C6, evaluated. In the text `c++ found` the token `c++` precedes the match
`found` and is separated from it by a space, but with `CountBefore = 1`
the field `Before` is empty: the class `[^\s+]` of the pattern excludes the
plus sign, so the token cannot be taken.  The converter is assumed to return
this markup-free text unchanged. -/
theorem context_loses_plus_token (HTML2Text : List Char → List Char)
    (h : HTML2Text "c++ found".toList = "c++ found".toList) :
    FuzzySearchHTML lowerASCII HTML2Text "found".toList "c++ found".toList
        (some { CountBefore := 1, FuzzyDistance := 20 })
      = some (Outcome.ok
          { Search := "found".toList, Found := "found".toList, Before := [], After := [] }) := by
  unfold FuzzySearchHTML
  rw [h]
  decide

/-- Witness for C6 with the identity as converter. -/
theorem context_loses_plus_token_witness :
    FuzzySearchHTML lowerASCII (fun s => s) "found".toList "c++ found".toList
        (some { CountBefore := 1, FuzzyDistance := 20 })
      = some (Outcome.ok
          { Search := "found".toList, Found := "found".toList, Before := [], After := [] }) :=
  context_loses_plus_token (fun s => s) rfl

end Plagiarism
